import Mathlib

/-!
Shallow embedding of the extraction engine in `app.py` (OCR lab-report
structuring application).

Modelling conventions:

* Text is a `List Nat` of Unicode code points.  The Python source file is
  stored with a MacRoman-mojibake of its original UTF-8, so character
  literals below use the original code points (for example the name
  character class `[A-Za-zÁ-Žá-ž.\-\s]`, the en dash 8211 and em dash 8212
  replaced in range fragments, and the split connective " až "
  = [32, 97, 382, 32]).
* Python regular expressions are compiled by hand into backtracking
  searches with the exact candidate order of the `re` engine (greedy
  quantifiers try longest first, lazy quantifiers shortest first,
  alternatives left to right, `finditer` scanning left to right and
  resuming at each match end).  Each matcher is annotated with the regex
  it implements.
* Python floats produced by `float(...)` on decimal literals are modelled
  as exact rationals.
* `re`-class `\s`, `str.strip` whitespace and `\d` are modelled by the
  code-point sets below (`\d` as the ASCII digits occurring in the data).
-/

namespace OCR

/-- Code points matched by Python `\s` (and stripped by `str.strip`). -/
def isWs (n : Nat) : Bool :=
  n = 32 || (9 ≤ n && n ≤ 13) || (28 ≤ n && n ≤ 31) || n = 133 || n = 160 ||
  n = 5760 || (8192 ≤ n && n ≤ 8202) || n = 8232 || n = 8233 || n = 8239 ||
  n = 8287 || n = 12288

/-- ASCII decimal digit, the `\d` of the patterns on this data. -/
def isDigit (n : Nat) : Bool := 48 ≤ n && n ≤ 57

/-- The name character class `[A-Za-zÁ-Žá-ž.\-\s]` of both line patterns
(Á = 193, Ž = 381, á = 225, ž = 382). -/
def nameCls (n : Nat) : Bool :=
  (65 ≤ n && n ≤ 90) || (97 ≤ n && n ≤ 122) || (193 ≤ n && n ≤ 381) ||
  (225 ≤ n && n ≤ 382) || n = 46 || n = 45 || isWs n

/-- The result character class `[^()\n]` of the normal-line pattern. -/
def resCls (n : Nat) : Bool := !(n = 40 || n = 41 || n = 10)

/-- Python word character (`\w`) for the `\b` boundaries, on the
alphabet of this data: ASCII alphanumerics, underscore, and the accented
letters of the name class. -/
def isWord (n : Nat) : Bool :=
  (48 ≤ n && n ≤ 57) || (65 ≤ n && n ≤ 90) || (97 ≤ n && n ≤ 122) ||
  n = 95 || (192 ≤ n && n ≤ 382 && !(n = 215) && !(n = 247))

/-- Decode a Lean string literal into the code point list used by the
embedding. -/
def strLit (s : String) : List Nat := s.data.map Char.toNat

/-! ## `normalize_spaces`

```python
def normalize_spaces(s: str) -> str:
    s = re.sub(r"\s+", " ", s)
    s = s.replace(" ,", ",").replace(" .", ".")
    return s.strip()
```
-/

/-- `re.sub(r"\s+", " ", s)`: each maximal whitespace run becomes one
space.  The flag records whether the previous character was whitespace. -/
def collapseWs : Bool → List Nat → List Nat
  | _, [] => []
  | prevWs, c :: r =>
    if isWs c then
      (if prevWs then collapseWs true r else 32 :: collapseWs true r)
    else c :: collapseWs false r

/-- `str.replace(" " + b, b)` for a one-character suffix `b`:
left-to-right non-overlapping replacement deleting the space. -/
def replSpThen (b : Nat) : List Nat → List Nat
  | [] => []
  | c :: r =>
    if c = 32 then
      match r with
      | c2 :: r2 => if c2 = b then b :: replSpThen b r2 else 32 :: replSpThen b (c2 :: r2)
      | [] => [32]
    else c :: replSpThen b r

/-- Remove trailing whitespace (the right half of `str.strip`). -/
def dropTrailWs : List Nat → List Nat
  | [] => []
  | c :: r =>
    let r' := dropTrailWs r
    if r' = [] then (if isWs c then [] else [c]) else c :: r'

/-- `str.strip()`. -/
def stripWs (l : List Nat) : List Nat := dropTrailWs (l.dropWhile isWs)

/-- `normalize_spaces` from `app.py`. -/
def normalize_spaces (l : List Nat) : List Nat :=
  stripWs (replSpThen 46 (replSpThen 44 (collapseWs false l)))

/-! ## Reference-range fragment processing

Shared verbatim by `parse_normal_lines` and `parse_two_streams`:

```python
rng = (m.group("range") or "").strip()
rng = rng.replace("~", "-").replace("–", "-").replace("—", "-")
rng = re.sub(r"\s*-\s*", "-", rng)
rmin, rmax = "", ""
if rng:
    parts = re.split(r"-| až ", rng)
    if len(parts) >= 2:
        rmin, rmax = parts[0].strip(), parts[1].strip()
    else:
        rmin = rng.strip()      # two-streams: rmin = rng (already stripped)
```
-/

/-- Unify the dash glyphs: tilde 126, en dash 8211, em dash 8212 to 45. -/
def dashGlyph (n : Nat) : Nat :=
  if n = 126 then 45 else if n = 8211 then 45 else if n = 8212 then 45 else n

/-- `re.sub(r"\s*-\s*", "-", rng)`: every hyphen absorbs the whitespace
runs around it (fuel-indexed; every step consumes at least one character,
so fuel `length + 1` never runs out). -/
def subDashF : Nat → List Nat → List Nat
  | 0, l => l
  | _ + 1, [] => []
  | fuel + 1, c :: r =>
    if c = 45 then 45 :: subDashF fuel (r.dropWhile isWs)
    else if isWs c then
      match r.dropWhile isWs with
      | 45 :: r2 => 45 :: subDashF fuel (r2.dropWhile isWs)
      | _ => c :: subDashF fuel r
    else c :: subDashF fuel r

def subDash (l : List Nat) : List Nat := subDashF (l.length + 1) l

/-- `re.split(r"-| až ", rng)`: split at every hyphen and at every
literal " až " (= [32, 97, 382, 32]); fuel-indexed as above. -/
def splitDashF : Nat → List Nat → List (List Nat)
  | 0, l => [l]
  | _ + 1, [] => [[]]
  | fuel + 1, c :: r =>
    if c = 45 then [] :: splitDashF fuel r
    else if c = 32 && r.take 3 = [97, 382, 32] then [] :: splitDashF fuel (r.drop 3)
    else
      match splitDashF fuel r with
      | h :: t => (c :: h) :: t
      | [] => [[c]]

def splitDash (l : List Nat) : List (List Nat) := splitDashF (l.length + 1) l

/-- The shared range-fragment step of both parsers, on the optional
`range`/`rng` capture group. -/
def range_split (o : Option (List Nat)) : List Nat × List Nat :=
  let rng0 := stripWs (o.getD [])
  let rng1 := subDash (rng0.map dashGlyph)
  if rng1 = [] then ([], [])
  else
    match splitDash rng1 with
    | p0 :: p1 :: _ => (stripWs p0, stripWs p1)
    | _ => (stripWs rng1, [])

/-! ## `to_num` inside `style_out_of_range`

```python
def to_num(x):
    if pd.isna(x): return None
    s = str(x).replace(",", ".")
    m = re.search(r"[-+]?\d*\.?\d+", s)
    return float(m.group(0)) if m else None
```
The leftmost match of `[-+]?\d*\.?\d+` is computed with the engine's
preference: optional sign taken if present, `\d*` maximal, the dot taken
only when at least one digit follows it (otherwise the engine backtracks
to an integer match).  The float value is modelled as an exact rational.
-/

/-- Numeric value of a digit list. -/
def natOfDigits (l : List Nat) : Nat := l.foldl (fun a c => a * 10 + (c - 48)) 0

/-- The exact rational value of the decimal `±D1.D2` (the float the code
builds from the matched text), as a normalised core rational. -/
def ratOfParts (neg : Bool) (num den : Nat) : ℚ :=
  mkRat (if neg then -(num : Int) else (num : Int)) den

/-- The body of one attempt of `[-+]?\d*\.?\d+` after consuming the
optional sign: `\d*` maximal, then the dot only when at least one digit
follows it (otherwise the engine backtracks to an integer match). -/
def numAtCore (neg : Bool) (m : List Nat) : Option ℚ :=
  let d1 := m.takeWhile isDigit
  let l2 := m.drop d1.length
  if d1 ≠ [] then
    match l2 with
    | 46 :: r2 =>
      let d2 := r2.takeWhile isDigit
      if d2 ≠ [] then
        some (ratOfParts neg (natOfDigits d1 * 10 ^ d2.length + natOfDigits d2) (10 ^ d2.length))
      else some (ratOfParts neg (natOfDigits d1) 1)
    | _ => some (ratOfParts neg (natOfDigits d1) 1)
  else
    match l2 with
    | 46 :: r2 =>
      let d2 := r2.takeWhile isDigit
      if d2 ≠ [] then some (ratOfParts neg (natOfDigits d2) (10 ^ d2.length))
      else none
    | _ => none

/-- One attempt of `[-+]?\d*\.?\d+` anchored at the head of `l`
(`[-+]?` taken greedily; when its body then fails, the retry without the
sign fails too, since `+`/`-` are neither digits nor the dot). -/
def numAt (l : List Nat) : Option ℚ :=
  match l with
  | 43 :: r => numAtCore false r
  | 45 :: r => numAtCore true r
  | _ => numAtCore false l

/-- `re.search`: try `numAt` at every position, leftmost first. -/
def searchNum : List Nat → Option ℚ
  | [] => none
  | c :: r =>
    match numAt (c :: r) with
    | some q => some q
    | none => searchNum r

/-- `to_num` of `style_out_of_range` (on the string values of this
pipeline; `pd.isna` is false for them). -/
def to_num (l : List Nat) : Option ℚ :=
  searchNum (l.map (fun c => if c = 44 then 46 else c))

/-! ## Record rows

A row of the fallback table: `["Kód", "Název", "Výsledek", "Min", "Max"]`. -/

structure LabRow where
  code : List Nat
  name : List Nat
  result : List Nat
  rmin : List Nat
  rmax : List Nat
deriving DecidableEq, Repr

/-! ## Regex building blocks

Candidate lists that realise the backtracking order of the `re` engine:
a greedy `p+` tries the longest class run first, a lazy `p+?` the
shortest, a greedy `p*` the longest including the empty match. -/

/-- `\d{5}` anchored at the head: five ASCII digits. -/
def take5d : List Nat → Option (List Nat × List Nat)
  | a :: b :: c :: d :: e :: r =>
    if isDigit a && isDigit b && isDigit c && isDigit d && isDigit e then
      some ([a, b, c, d, e], r)
    else none
  | _ => none

/-- Candidate lengths for a greedy `p+` at the head of `l`: longest run
first, down to 1. -/
def plusDesc (p : Nat → Bool) (l : List Nat) : List Nat :=
  ((List.range (l.takeWhile p).length).map (· + 1)).reverse

/-- Candidate lengths for a lazy `p+?` at the head of `l`: 1 upward. -/
def plusAsc (p : Nat → Bool) (l : List Nat) : List Nat :=
  (List.range (l.takeWhile p).length).map (· + 1)

/-- Candidate lengths for a greedy `p*` at the head of `l`: longest run
first, down to 0. -/
def starDesc (p : Nat → Bool) (l : List Nat) : List Nat :=
  (List.range ((l.takeWhile p).length + 1)).reverse

/-! ## `parse_normal_lines`

```python
pattern = re.compile(
    r"(?P<code>\d{5})\s+(?P<name>[A-Za-zÁ-Žá-ž\.\-\s]+?)\s+"
    r"(?P<result>[^()\n]+?)\s*(?:\((?P<range>[^)]+)\))?(?=\n|$)")
```
-/

/-- The lookahead `(?=\n|$)` (no MULTILINE: `$` is the end of the text
or just before a final newline, which the `\n` branch subsumes). -/
def lookNl (l : List Nat) : Bool := l = [] || l.head? = some 10

/-- The pattern tail `\s*` has been consumed by the caller; this is the
optional group `(?:\((?P<range>[^)]+)\))?` — present branch first — and
then the lookahead. -/
def parenTail (l : List Nat) : Option (Option (List Nat) × List Nat) :=
  (match l with
   | 40 :: r =>
     let rg := r.takeWhile (fun c => c ≠ 41)
     match r.drop rg.length with
     | 41 :: rest => if rg ≠ [] && lookNl rest then some (some rg, rest) else none
     | _ => none
   | _ => none)
  <|> (if lookNl l then some (none, l) else none)

/-- One anchored attempt of the normal-line pattern: code, then greedy
`\s+`, lazy name, greedy `\s+`, lazy result, greedy `\s*`, optional
range, lookahead.  Returns the captures and the rest after the match. -/
def matchNormalAt (l : List Nat) : Option (List Nat × List Nat × List Nat × Option (List Nat) × List Nat) :=
  (take5d l).bind fun cd =>
    ((plusDesc isWs cd.2).findSome? fun w1 =>
      let r1 := cd.2.drop w1
      (plusAsc nameCls r1).findSome? fun nm =>
        let r2 := r1.drop nm
        (plusDesc isWs r2).findSome? fun w2 =>
          let r3 := r2.drop w2
          (plusAsc resCls r3).findSome? fun rs =>
            let r4 := r3.drop rs
            (starDesc isWs r4).findSome? fun w3 =>
              (parenTail (r4.drop w3)).map fun pr =>
                (r1.take nm, r3.take rs, pr.1, pr.2)).map
      fun x => (cd.1, x)

/-- Build the appended record
`[code.strip(), normalize_spaces(name), normalize_spaces(result), rmin, rmax]`. -/
def mkNormalRow (code name result : List Nat) (orng : Option (List Nat)) : LabRow :=
  ⟨stripWs code, normalize_spaces name, normalize_spaces result,
   (range_split orng).1, (range_split orng).2⟩

/-- `finditer` scan: try the anchored match at each position, resume at
each match end.  Every step consumes at least one character, so fuel
`length + 1` never runs out. -/
def scanNormal : Nat → List Nat → List LabRow
  | 0, _ => []
  | _ + 1, [] => []
  | fuel + 1, c :: r =>
    match matchNormalAt (c :: r) with
    | some (code, name, result, orng, rest) =>
      mkNormalRow code name result orng :: scanNormal fuel rest
    | none => scanNormal fuel r

/-- `parse_normal_lines` from `app.py`. -/
def parse_normal_lines (t : List Nat) : List LabRow :=
  scanNormal (t.length + 1) t

/-! ## `parse_two_streams`

First line: `(\d{5})\s+([A-Za-zÁ-Žá-ž\.\-\s]+?)(?=\s+\d{5}|$)`.
Remaining lines joined by a space:
`(?P<val>(?:[><]?\s*[\d\.,]+(?:\s*[xX^/\-\+\*]*\s*[\d\.,]*)*\s*[A-Za-z/%\^\d\.\-]*`
`|\bneg\b|poz\b)[^(\n]*?)\s*(?:\((?P<rng>[^)]+)\))?`.
-/

/-- `str.split("\n")`. -/
def splitNl : List Nat → List (List Nat)
  | [] => [[]]
  | c :: r =>
    if c = 10 then [] :: splitNl r
    else
      match splitNl r with
      | h :: t => (c :: h) :: t
      | [] => [[c]]

/-- `" ".join(...)`. -/
def joinSp : List (List Nat) → List Nat
  | [] => []
  | [x] => x
  | x :: xs => x ++ 32 :: joinSp xs

/-- The lookahead `(?=\s+\d{5}|$)` of the code/name pattern (`\s+` can
only succeed on the full whitespace run, but the engine tries every
length). -/
def cnLook (l : List Nat) : Bool :=
  (plusDesc isWs l).any (fun k => (take5d (l.drop k)).isSome) || l = [] || l = [10]

/-- One anchored attempt of the code/name pattern. -/
def matchCnAt (l : List Nat) : Option ((List Nat × List Nat) × List Nat) :=
  (take5d l).bind fun cd =>
    ((plusDesc isWs cd.2).findSome? fun w1 =>
      let r1 := cd.2.drop w1
      (plusAsc nameCls r1).findSome? fun nm =>
        if cnLook (r1.drop nm) then some (r1.take nm, r1.drop nm) else none).map
      fun x => ((cd.1, x.1), x.2)

/-- `finditer` scan for `(code, name)` pairs, stored as
`(m.group(1).strip(), normalize_spaces(m.group(2)))`. -/
def scanCn : Nat → List Nat → List (List Nat × List Nat)
  | 0, _ => []
  | _ + 1, [] => []
  | fuel + 1, c :: r =>
    match matchCnAt (c :: r) with
    | some (p, rest) => (stripWs p.1, normalize_spaces p.2) :: scanCn fuel rest
    | none => scanCn fuel r

/-- `[\d\.,]` of the value pattern. -/
def digCls (n : Nat) : Bool := isDigit n || n = 46 || n = 44

/-- `[xX^/\-\+\*]` of the value pattern. -/
def markCls (n : Nat) : Bool :=
  n = 120 || n = 88 || n = 94 || n = 47 || n = 45 || n = 43 || n = 42

/-- Union class consumed by the inner star
`(?:\s*[xX^/\-\+\*]*\s*[\d\.,]*)*`: each non-empty iteration consumes
whitespace, markers or `[\d\.,]` characters, so the greedy star consumes
the maximal run over the union. -/
def unionCls (n : Nat) : Bool := isWs n || markCls n || digCls n

/-- `[A-Za-z/%\^\d\.\-]` closing the first value alternative. -/
def finCls (n : Nat) : Bool :=
  (65 ≤ n && n ≤ 90) || (97 ≤ n && n ≤ 122) || n = 47 || n = 37 || n = 94 ||
  isDigit n || n = 46 || n = 45

/-- First alternative of the `val` group.  Everything after the group is
optional, so the greedy-first candidate is the match; backtracking into
`[><]?\s*` cannot rescue a failed `[\d\.,]+` because every earlier
restart lands on `>`/`<` or whitespace.  Returns the rest after the
alternative. -/
def valCoreA (l : List Nat) : Option (List Nat) :=
  let l1 := if l.head? = some 62 || l.head? = some 60 then l.tail else l
  let l2 := l1.dropWhile isWs
  match l2.head? with
  | some c =>
    if digCls c then
      some ((((l2.dropWhile digCls).dropWhile unionCls).dropWhile isWs).dropWhile finCls)
    else none
  | none => none

/-- Word-boundary test on the yet-unread side. -/
def bAfter (l : List Nat) : Bool :=
  match l.head? with
  | some c => !isWord c
  | none => true

/-- The `val` alternation: the numeric alternative, then `\bneg\b`, then
`poz\b` (`prev` is the character before the match position, for `\b`). -/
def valCore (prev : Option Nat) (l : List Nat) : Option (List Nat) :=
  match valCoreA l with
  | some rest => some rest
  | none =>
    if l.take 3 = [110, 101, 103] &&
        (match prev with | some c => !isWord c | none => true) &&
        bAfter (l.drop 3) then
      some (l.drop 3)
    else if l.take 3 = [112, 111, 122] && bAfter (l.drop 3) then
      some (l.drop 3)
    else none

/-- One anchored attempt of the value pattern.  The lazy `[^(\n]*?`
contributes nothing (the rest of the pattern always succeeds), then `\s*`
and the optional `\((?P<rng>[^)]+)\)`.  Returns `((val, rng?), rest)`. -/
def matchValAt (prev : Option Nat) (l : List Nat) : Option ((List Nat × Option (List Nat)) × List Nat) :=
  match valCore prev l with
  | none => none
  | some restCore =>
    let val := l.take (l.length - restCore.length)
    let u := restCore.dropWhile isWs
    match u with
    | 40 :: r =>
      let rg := r.takeWhile (fun c => c ≠ 41)
      (match r.drop rg.length with
       | 41 :: rest2 => if rg ≠ [] then some ((val, some rg), rest2) else some ((val, none), u)
       | _ => some ((val, none), u))
    | _ => some ((val, none), u)

/-- `finditer` scan for `(normalize_spaces(val), rmin, rmax)` triples,
tracking the previous character for `\b`. -/
def scanVal : Nat → Option Nat → List Nat → List (List Nat × List Nat × List Nat)
  | 0, _, _ => []
  | _ + 1, _, [] => []
  | fuel + 1, prev, c :: r =>
    match matchValAt prev (c :: r) with
    | some (pv, rest) =>
      let consumed := (c :: r).take ((c :: r).length - rest.length)
      (normalize_spaces pv.1, range_split pv.2) :: scanVal fuel consumed.getLast? rest
    | none => scanVal fuel (some c) r

/-- `parse_two_streams` from `app.py`. -/
def parse_two_streams (t : List Nat) : List LabRow :=
  let lines := ((splitNl t).map stripWs).filter (fun l => l ≠ [])
  match lines with
  | [] => []
  | l0 :: restLines =>
    let cns := scanCn (l0.length + 1) l0
    let vals := scanVal ((joinSp restLines).length + 1) none (joinSp restLines)
    List.zipWith (fun cn v => (⟨cn.1, cn.2, v.1, v.2.1, v.2.2⟩ : LabRow)) cns vals

/-- `regex_fallback_table` from `app.py` (the rows of the returned
DataFrame; both the no-records case and the empty-DataFrame case give an
empty row list). -/
def regex_fallback_table (t : List Nat) : List LabRow :=
  let recs := parse_normal_lines t
  if recs = [] then parse_two_streams t else recs

/-- The per-row out-of-range test of `style_out_of_range`: highlighted
iff the value is numeric, at least one bound is numeric, and the value is
below the min or above the max. -/
def row_flag (r : LabRow) : Bool :=
  match to_num r.result with
  | none => false
  | some v =>
    ((to_num r.rmin).isSome || (to_num r.rmax).isSome) &&
    (((to_num r.rmin).elim false (fun mn => decide (v < mn))) ||
     ((to_num r.rmax).elim false (fun mx => decide (mx < v))))

/-! ## `extract_json_block`

```python
def extract_json_block(text: str):
    if not text:
        return None
    try:
        return json.loads(text)
    except Exception:
        pass
    m_obj = re.search(r'\x7b[\s\S]*\x7d\s*$', text)
    m_arr = re.search(r'\[[\s\S]*\]\s*$', text)
    for m in [m_obj, m_arr]:
        if m:
            block = m.group(0)
            try:
                return json.loads(block)
            except Exception:
                continue
    return None
```

`json.loads` is the Python stdlib JSON decoder, modelled below: JSON
values with the stdlib extensions NaN / Infinity / -Infinity, strict
strings (control characters rejected, the standard escapes and `\uXXXX`
with surrogate-pair combination), numbers `-?(0|[1-9]d*)(.d+)?([eE][+-]?d+)?`
as exact rationals, and the JSON whitespace 32/9/10/13 between tokens.
The decoder is fuel-indexed; every recursive call follows the
consumption of at least one character, so fuel `length + 1` suffices. -/

inductive Json where
  | null : Json
  | bool (b : Bool) : Json
  | num (q : ℚ) : Json
  | str (s : List Nat) : Json
  | arr (xs : List Json) : Json
  | obj (kvs : List (List Nat × Json)) : Json
  | nan : Json
  | inf : Json
  | ninf : Json

/-- JSON inter-token whitespace. -/
def jWs (n : Nat) : Bool := n = 32 || n = 9 || n = 10 || n = 13

/-- Hexadecimal digit value. -/
def hexVal (n : Nat) : Option Nat :=
  if 48 ≤ n && n ≤ 57 then some (n - 48)
  else if 65 ≤ n && n ≤ 70 then some (n - 55)
  else if 97 ≤ n && n ≤ 102 then some (n - 87)
  else none

/-- Decode a `\uXXXX` payload. -/
def hex4 : List Nat → Option (Nat × List Nat)
  | a :: b :: c :: d :: r =>
    match hexVal a, hexVal b, hexVal c, hexVal d with
    | some x, some y, some z, some w => some (((x * 16 + y) * 16 + z) * 16 + w, r)
    | _, _, _, _ => none
  | _ => none

/-- JSON string body after the opening quote (strict mode). -/
def parseJStr : Nat → List Nat → Option (List Nat × List Nat)
  | 0, _ => none
  | _ + 1, [] => none
  | fuel + 1, c :: r =>
    if c = 34 then some ([], r)
    else if c = 92 then
      match r with
      | e :: r2 =>
        if e = 117 then
          match hex4 r2 with
          | some (x, r3) =>
            if 55296 ≤ x && x ≤ 56319 then
              match r3 with
              | 92 :: 117 :: r4 =>
                match hex4 r4 with
                | some (y, r5) =>
                  if 56320 ≤ y && y ≤ 57343 then
                    (parseJStr fuel r5).map fun p =>
                      ((65536 + (x - 55296) * 1024 + (y - 56320)) :: p.1, p.2)
                  else (parseJStr fuel r3).map fun p => (x :: p.1, p.2)
                | none => (parseJStr fuel r3).map fun p => (x :: p.1, p.2)
              | _ => (parseJStr fuel r3).map fun p => (x :: p.1, p.2)
            else (parseJStr fuel r3).map fun p => (x :: p.1, p.2)
          | none => none
        else
          match
            (if e = 34 then some 34 else if e = 92 then some 92
             else if e = 47 then some 47 else if e = 98 then some 8
             else if e = 102 then some 12 else if e = 110 then some 10
             else if e = 114 then some 13 else if e = 116 then some 9
             else none) with
          | some ch => (parseJStr fuel r2).map fun p => (ch :: p.1, p.2)
          | none => none
      | [] => none
    else if c < 32 then none
    else (parseJStr fuel r).map fun p => (c :: p.1, p.2)

/-- JSON number `-?(0|[1-9]\d*)(\.\d+)?([eE][+-]?\d+)?` anchored at the
head, as an exact rational. -/
def parseJNum (l : List Nat) : Option (Json × List Nat) :=
  let s : Bool × List Nat :=
    match l with
    | 45 :: r => (true, r)
    | _ => (false, l)
  let ipart : Option (Nat × List Nat) :=
    match s.2 with
    | 48 :: r => some (0, r)
    | c :: r =>
      if 49 ≤ c && c ≤ 57 then
        let ds := (c :: r).takeWhile isDigit
        some (natOfDigits ds, (c :: r).drop ds.length)
      else none
    | [] => none
  match ipart with
  | none => none
  | some (ip, l1) =>
    let frac : Nat × Nat × List Nat :=
      match l1 with
      | 46 :: r =>
        let ds := r.takeWhile isDigit
        if ds = [] then (ip, 0, l1)
        else (ip * 10 ^ ds.length + natOfDigits ds, ds.length, r.drop ds.length)
      | _ => (ip, 0, l1)
    let ex : Int × List Nat :=
      match frac.2.2 with
      | e :: r =>
        if e = 101 || e = 69 then
          let se : Bool × List Nat :=
            match r with
            | 45 :: r2 => (true, r2)
            | 43 :: r2 => (false, r2)
            | _ => (false, r)
          let ds := se.2.takeWhile isDigit
          if ds = [] then (0, frac.2.2)
          else (if se.1 then -(natOfDigits ds : Int) else (natOfDigits ds : Int),
                se.2.drop ds.length)
        else (0, frac.2.2)
      | [] => (0, frac.2.2)
    let nExp : Nat := frac.2.1
    let base : Int := if s.1 then -(frac.1 : Int) else (frac.1 : Int)
    let q : ℚ :=
      match ex.1 with
      | Int.ofNat k => mkRat (base * 10 ^ k) (10 ^ nExp)
      | Int.negSucc k => mkRat base (10 ^ nExp * 10 ^ (k + 1))
    some (Json.num q, ex.2)

mutual

/-- One JSON value anchored at the head (no leading whitespace). -/
def parseJVal : Nat → List Nat → Option (Json × List Nat)
  | 0, _ => none
  | _ + 1, [] => none
  | fuel + 1, c :: r =>
    if c = 110 then (if r.take 3 = [117, 108, 108] then some (Json.null, r.drop 3) else none)
    else if c = 116 then (if r.take 3 = [114, 117, 101] then some (Json.bool true, r.drop 3) else none)
    else if c = 102 then (if r.take 4 = [97, 108, 115, 101] then some (Json.bool false, r.drop 4) else none)
    else if c = 78 then (if r.take 2 = [97, 78] then some (Json.nan, r.drop 2) else none)
    else if c = 73 then
      (if r.take 7 = [110, 102, 105, 110, 105, 116, 121] then some (Json.inf, r.drop 7) else none)
    else if c = 45 && r.take 8 = [73, 110, 102, 105, 110, 105, 116, 121] then
      some (Json.ninf, r.drop 8)
    else if c = 34 then (parseJStr fuel r).map fun p => (Json.str p.1, p.2)
    else if c = 91 then
      match r.dropWhile jWs with
      | 93 :: rest => some (Json.arr [], rest)
      | r1 => (parseJArr fuel r1).map fun p => (Json.arr p.1, p.2)
    else if c = 123 then
      match r.dropWhile jWs with
      | 125 :: rest => some (Json.obj [], rest)
      | r1 => (parseJObj fuel r1).map fun p => (Json.obj p.1, p.2)
    else parseJNum (c :: r)

/-- Non-empty array items, positioned at a value (whitespace skipped). -/
def parseJArr : Nat → List Nat → Option (List Json × List Nat)
  | 0, _ => none
  | fuel + 1, l =>
    match parseJVal fuel l with
    | none => none
    | some (v, rest) =>
      match rest.dropWhile jWs with
      | 93 :: r2 => some ([v], r2)
      | 44 :: r2 =>
        (parseJArr fuel (r2.dropWhile jWs)).map fun p => (v :: p.1, p.2)
      | _ => none

/-- Non-empty object items, positioned at a key (whitespace skipped). -/
def parseJObj : Nat → List Nat → Option (List (List Nat × Json) × List Nat)
  | 0, _ => none
  | fuel + 1, l =>
    match l with
    | 34 :: r =>
      match parseJStr fuel r with
      | none => none
      | some (k, r1) =>
        match r1.dropWhile jWs with
        | 58 :: r2 =>
          match parseJVal fuel (r2.dropWhile jWs) with
          | none => none
          | some (v, r3) =>
            match r3.dropWhile jWs with
            | 125 :: r4 => some ([(k, v)], r4)
            | 44 :: r4 =>
              (parseJObj fuel (r4.dropWhile jWs)).map fun p => ((k, v) :: p.1, p.2)
            | _ => none
        | _ => none
    | _ => none

end

/-- `json.loads`: one value, surrounding whitespace allowed, nothing
else. -/
def json_loads (t : List Nat) : Option Json :=
  match parseJVal (t.length + 1) (t.dropWhile jWs) with
  | some (v, rest) => if rest.dropWhile jWs = [] then some v else none
  | none => none

/-- Is there a closing character strictly inside `l` whose suffix is all
whitespace?  (`[\s\S]*` is greedy and `\s*$` absorbs the rest, so when
this holds the whole suffix from the opener is the matched block.) -/
def anyCloseWs (cl : Nat) : List Nat → Bool
  | [] => false
  | c :: r => (c = cl && r.all isWs) || anyCloseWs cl r

/-- The suffix starting at the first occurrence of `op`. -/
def suffixFrom (op : Nat) : List Nat → Option (List Nat)
  | [] => none
  | c :: r => if c = op then some (c :: r) else suffixFrom op r

/-- `re.search(r'\x7b[\s\S]*\x7d\s*$', text).group(0)` (and the `[...]`
variant): the match, when it exists, runs from the first opener to the
end of the text. -/
def blockFrom (op cl : Nat) (t : List Nat) : Option (List Nat) :=
  match suffixFrom op t with
  | some s => if anyCloseWs cl s.tail then some s else none
  | none => none

/-- `extract_json_block` from `app.py`. -/
def extract_json_block (t : List Nat) : Option Json :=
  if t = [] then none
  else
    match json_loads t with
    | some v => some v
    | none =>
      match blockFrom 123 125 t with
      | some b =>
        match json_loads b with
        | some v => some v
        | none => (blockFrom 91 93 t).bind json_loads
      | none => (blockFrom 91 93 t).bind json_loads

/-! ## Specification predicates -/

/-- The first position of `l` does not carry an adjacent `(p, q)` pair. -/
def pairHead (p q : Nat → Bool) (a : Nat) : List Nat → Bool
  | b :: _ => !(p a && q b)
  | [] => true

/-- No two adjacent characters of `l` satisfy `p` then `q`. -/
def noPair (p q : Nat → Bool) : List Nat → Bool
  | a :: r => pairHead p q a r && noPair p q r
  | [] => true

/-- Every whitespace character is the plain space 32. -/
def wsIsSp (l : List Nat) : Bool := l.all (fun c => !isWs c || c = 32)

/-- The first character, if any, is not whitespace. -/
def headNotWs : List Nat → Bool
  | c :: _ => !isWs c
  | [] => true

/-- The last character, if any, is not whitespace. -/
def lastNotWs : List Nat → Bool
  | [] => true
  | [c] => !isWs c
  | _ :: c :: r => lastNotWs (c :: r)

/-- Fully normalised text: single plain spaces only, none adjacent, none
before a comma or period, none at either end. -/
def goodNorm (l : List Nat) : Bool :=
  wsIsSp l && noPair isWs isWs l &&
  noPair (fun a => a = 32) (fun b => b = 44) l &&
  noPair (fun a => a = 32) (fun b => b = 46) l &&
  headNotWs l && lastNotWs l

/-- A code: exactly five ASCII digits. -/
def fiveDigits (l : List Nat) : Bool := l.length = 5 && l.all isDigit

/-- Some position of `l` starts a run of five consecutive digits. -/
def has5 : List Nat → Bool
  | [] => false
  | c :: r => (take5d (c :: r)).isSome || has5 r

/-! ## Properties of `normalize_spaces` -/

theorem noPair_tail {p q : Nat → Bool} {a : Nat} {r : List Nat}
    (h : noPair p q (a :: r) = true) : noPair p q r = true := by
  simp only [noPair, Bool.and_eq_true] at h
  exact h.2

theorem pairHead_of_elem {p q : Nat → Bool} {a : Nat} {r : List Nat}
    (h : noPair p q (a :: r) = true) : pairHead p q a r = true := by
  simp only [noPair, Bool.and_eq_true] at h
  exact h.1

theorem collapseWs_cons (b : Bool) (c : Nat) (r : List Nat) :
    collapseWs b (c :: r) =
      if isWs c = true then (if b = true then collapseWs true r else 32 :: collapseWs true r)
      else c :: collapseWs false r := rfl

theorem dropTrailWs_cons (c : Nat) (r : List Nat) :
    dropTrailWs (c :: r) =
      if dropTrailWs r = [] then (if isWs c = true then [] else [c])
      else c :: dropTrailWs r := rfl

theorem dropTrailWs_nil : dropTrailWs [] = [] := rfl

theorem collapseWs_wsIsSp : ∀ (b : Bool) (l : List Nat), wsIsSp (collapseWs b l) = true := by
  intro b l
  induction b, l using collapseWs.induct with
  | case1 x => rfl
  | case2 c r hws ih => simpa [collapseWs, hws] using ih
  | case3 prevWs c r hws hprev ih =>
    have hp : prevWs = false := by revert hprev; cases prevWs <;> simp
    subst hp
    simp only [collapseWs, hws, if_true, if_false, Bool.false_eq_true]
    simpa [wsIsSp] using ih
  | case4 prevWs c r hws ih =>
    simp only [collapseWs, hws, if_false, Bool.false_eq_true]
    simp only [wsIsSp, List.all_cons, Bool.and_eq_true] at ih ⊢
    exact ⟨by simp [hws], ih⟩

theorem collapseWs_headNotWs : ∀ (l : List Nat), headNotWs (collapseWs true l) = true := by
  intro l
  induction l with
  | nil => rfl
  | cons c r ih =>
    by_cases hws : isWs c = true
    · simpa [collapseWs, hws] using ih
    · simp only [Bool.not_eq_true] at hws
      simp [collapseWs, hws, headNotWs]

theorem pairHead_of_headNotWs {a : Nat} {l : List Nat} (h : headNotWs l = true) :
    pairHead isWs isWs a l = true := by
  cases l with
  | nil => rfl
  | cons b r => simp_all [headNotWs, pairHead]

theorem collapseWs_noDbl : ∀ (b : Bool) (l : List Nat),
    noPair isWs isWs (collapseWs b l) = true := by
  intro b l
  induction b, l using collapseWs.induct with
  | case1 x => rfl
  | case2 c r hws ih => simpa [collapseWs, hws] using ih
  | case3 prevWs c r hws hprev ih =>
    have hp : prevWs = false := by revert hprev; cases prevWs <;> simp
    subst hp
    simp only [collapseWs, hws, if_true]
    simp only [noPair, Bool.and_eq_true]
    exact ⟨pairHead_of_headNotWs (collapseWs_headNotWs r), ih⟩
  | case4 prevWs c r hws ih =>
    simp only [collapseWs, hws, if_false, Bool.false_eq_true]
    simp only [noPair, Bool.and_eq_true]
    refine ⟨?_, ih⟩
    cases collapseWs false r with
    | nil => rfl
    | cons x xs =>
      simp only [Bool.not_eq_true] at hws
      simp [pairHead, hws]

theorem replSpThen_eq2 (b : Nat) (r2 : List Nat) :
    replSpThen b (32 :: b :: r2) = b :: replSpThen b r2 := by
  rw [replSpThen.eq_def]; simp

theorem replSpThen_eq3 (b c2 : Nat) (r2 : List Nat) (h : ¬c2 = b) :
    replSpThen b (32 :: c2 :: r2) = 32 :: replSpThen b (c2 :: r2) := by
  rw [replSpThen.eq_def]; simp [h]

theorem replSpThen_eq5 (b c : Nat) (r : List Nat) (h : ¬c = 32) :
    replSpThen b (c :: r) = c :: replSpThen b r := by
  rw [replSpThen.eq_def]
  cases r with
  | nil => simp [h, replSpThen]
  | cons x xs => simp [h]

theorem replSpThen_head (b : Nat) (m : List Nat) :
    (replSpThen b m).head? = m.head? ∨ (replSpThen b m).head? = some b := by
  induction m using replSpThen.induct b with
  | case1 => left; rfl
  | case2 r2 _ => right; rw [replSpThen_eq2]; rfl
  | case3 c2 r2 hb _ => left; rw [replSpThen_eq3 b c2 r2 hb]; rfl
  | case4 => left; rfl
  | case5 c r hc _ => left; rw [replSpThen_eq5 b c r hc]; rfl

theorem pairHead_trans {p q : Nat → Bool} {a b : Nat} {m out : List Nat}
    (hph : pairHead p q a m = true) (hq : q b = false)
    (hh : out.head? = m.head? ∨ out.head? = some b) :
    pairHead p q a out = true := by
  cases out with
  | nil => rfl
  | cons x xs =>
    rcases hh with hh | hh
    · cases m with
      | nil => simp at hh
      | cons y ys =>
        simp only [List.head?] at hh
        injection hh with hxy
        subst hxy
        simpa [pairHead] using hph
    · simp only [List.head?] at hh
      injection hh with hxb
      subst hxb
      simp [pairHead, hq]

theorem replSpThen_noPair_pres (b : Nat) (p q : Nat → Bool) (hq : q b = false)
    (l : List Nat) (h : noPair p q l = true) : noPair p q (replSpThen b l) = true := by
  induction l using replSpThen.induct b with
  | case1 => exact h
  | case2 r2 ih =>
    rw [replSpThen_eq2]
    simp only [noPair, Bool.and_eq_true]
    exact ⟨pairHead_trans (pairHead_of_elem (noPair_tail h)) hq (replSpThen_head b r2),
           ih (noPair_tail (noPair_tail h))⟩
  | case3 c2 r2 hb ih =>
    rw [replSpThen_eq3 b c2 r2 hb]
    simp only [noPair, Bool.and_eq_true]
    exact ⟨pairHead_trans (pairHead_of_elem h) hq (replSpThen_head b (c2 :: r2)),
           ih (noPair_tail h)⟩
  | case4 => exact h
  | case5 c r hc ih =>
    rw [replSpThen_eq5 b c r hc]
    simp only [noPair, Bool.and_eq_true]
    exact ⟨pairHead_trans (pairHead_of_elem h) hq (replSpThen_head b r),
           ih (noPair_tail h)⟩

theorem replSpThen_mem (b : Nat) (l : List Nat) :
    ∀ x ∈ replSpThen b l, x ∈ l := by
  induction l using replSpThen.induct b with
  | case1 =>
    intro x hx
    rw [show replSpThen b [] = [] from rfl] at hx
    simp at hx
  | case2 r2 ih =>
    intro x hx
    rw [replSpThen_eq2] at hx
    rcases List.mem_cons.mp hx with hxb | hxm
    · subst hxb; simp
    · exact List.mem_cons_of_mem _ (List.mem_cons_of_mem _ (ih x hxm))
  | case3 c2 r2 hb ih =>
    intro x hx
    rw [replSpThen_eq3 b c2 r2 hb] at hx
    rcases List.mem_cons.mp hx with hx32 | hxm
    · subst hx32; simp
    · exact List.mem_cons_of_mem _ (ih x hxm)
  | case4 =>
    intro x hx
    rw [show replSpThen b [32] = [32] from rfl] at hx
    simpa using hx
  | case5 c r hc ih =>
    intro x hx
    rw [replSpThen_eq5 b c r hc] at hx
    rcases List.mem_cons.mp hx with hxc | hxm
    · subst hxc; simp
    · exact List.mem_cons_of_mem _ (ih x hxm)

theorem replSpThen_wsIsSp (b : Nat) (l : List Nat) (h : wsIsSp l = true) :
    wsIsSp (replSpThen b l) = true := by
  simp only [wsIsSp, List.all_eq_true] at h ⊢
  exact fun x hx => h x (replSpThen_mem b l x hx)

theorem replSpThen_removes (b : Nat) (hb : b ≠ 32) (l : List Nat)
    (hdbl : noPair isWs isWs l = true) :
    noPair (fun a => a = 32) (fun c => c = b) (replSpThen b l) = true := by
  induction l using replSpThen.induct b with
  | case1 => rfl
  | case2 r2 ih =>
    rw [replSpThen_eq2]
    simp only [noPair, Bool.and_eq_true]
    refine ⟨?_, ih (noPair_tail (noPair_tail hdbl))⟩
    cases hr : replSpThen b r2 with
    | nil => rfl
    | cons x xs => simp [pairHead, fun h : b = 32 => hb h]
  | case3 c2 r2 hb2 ih =>
    rw [replSpThen_eq3 b c2 r2 hb2]
    simp only [noPair, Bool.and_eq_true]
    refine ⟨?_, ih (noPair_tail hdbl)⟩
    rcases replSpThen_head b (c2 :: r2) with hh | hh
    · cases hr : replSpThen b (c2 :: r2) with
      | nil => rfl
      | cons x xs =>
        rw [hr] at hh
        simp only [List.head?] at hh
        injection hh with hx
        subst hx
        simp [pairHead, hb2]
    · cases hr : replSpThen b (c2 :: r2) with
      | nil => rfl
      | cons x xs =>
        rw [hr] at hh
        simp only [List.head?] at hh
        injection hh with hxb
        rw [hxb] at hr
        have h32 := pairHead_of_elem hdbl
        by_cases hc232 : c2 = 32
        · subst hc232
          simp [pairHead, isWs] at h32
        · rw [replSpThen_eq5 b c2 r2 hc232] at hr
          injection hr with h1 _
          exact absurd h1 hb2
  | case4 => rfl
  | case5 c r hc ih =>
    rw [replSpThen_eq5 b c r hc]
    simp only [noPair, Bool.and_eq_true]
    refine ⟨?_, ih (noPair_tail hdbl)⟩
    cases hr : replSpThen b r with
    | nil => rfl
    | cons x xs => simp [pairHead, hc]

theorem pairHead_of_same_head {p q : Nat → Bool} {a : Nat} {m out : List Nat}
    (hph : pairHead p q a m = true) (hh : out.head? = m.head?) :
    pairHead p q a out = true := by
  cases out with
  | nil => rfl
  | cons x xs =>
    cases m with
    | nil => simp at hh
    | cons y ys =>
      simp only [List.head?] at hh
      injection hh with hxy
      subst hxy
      simpa [pairHead] using hph

theorem dropWhile_headNotWs (l : List Nat) : headNotWs (l.dropWhile isWs) = true := by
  induction l with
  | nil => rfl
  | cons c r ih =>
    by_cases h : isWs c = true
    · simpa [List.dropWhile_cons, h] using ih
    · simp [List.dropWhile_cons, h, headNotWs]

theorem dropWhile_noPair (p q f : Nat → Bool) (l : List Nat) (h : noPair p q l = true) :
    noPair p q (l.dropWhile f) = true := by
  induction l with
  | nil => exact h
  | cons c r ih =>
    by_cases hf : f c = true
    · simpa [List.dropWhile_cons, hf] using ih (noPair_tail h)
    · simpa [List.dropWhile_cons, hf] using h

theorem dropWhile_all (P f : Nat → Bool) (l : List Nat) (h : l.all P = true) :
    (l.dropWhile f).all P = true := by
  induction l with
  | nil => exact h
  | cons c r ih =>
    simp only [List.all_cons, Bool.and_eq_true] at h
    by_cases hf : f c = true
    · simpa [List.dropWhile_cons, hf] using ih h.2
    · rw [List.dropWhile_cons, if_neg hf]
      simp only [List.all_cons, Bool.and_eq_true]
      exact ⟨h.1, h.2⟩

theorem dropTrailWs_nil_or_head (l : List Nat) :
    dropTrailWs l = [] ∨ (dropTrailWs l).head? = l.head? := by
  cases l with
  | nil => left; rfl
  | cons c r =>
    rw [dropTrailWs_cons]
    by_cases h : dropTrailWs r = []
    · by_cases hw : isWs c = true
      · left; rw [if_pos h, if_pos hw]
      · right; rw [if_pos h, if_neg hw]; rfl
    · right; rw [if_neg h]; rfl

theorem dropTrailWs_lastNotWs (l : List Nat) : lastNotWs (dropTrailWs l) = true := by
  induction l with
  | nil => rfl
  | cons c r ih =>
    rw [dropTrailWs_cons]
    by_cases h : dropTrailWs r = []
    · by_cases hw : isWs c = true
      · rw [if_pos h, if_pos hw]; rfl
      · rw [if_pos h, if_neg hw]
        simpa [lastNotWs] using hw
    · cases hx : dropTrailWs r with
      | nil => exact absurd hx h
      | cons x xs =>
        rw [if_neg (by simp)]
        rw [show lastNotWs (c :: x :: xs) = lastNotWs (x :: xs) from rfl, ← hx]
        exact ih

theorem dropTrailWs_noPair (p q : Nat → Bool) (l : List Nat) (h : noPair p q l = true) :
    noPair p q (dropTrailWs l) = true := by
  induction l with
  | nil => exact h
  | cons c r ih =>
    rw [dropTrailWs_cons]
    by_cases hn : dropTrailWs r = []
    · by_cases hw : isWs c = true
      · rw [if_pos hn, if_pos hw]; rfl
      · rw [if_pos hn, if_neg hw]; rfl
    · rw [if_neg hn]
      simp only [noPair, Bool.and_eq_true]
      constructor
      · rcases dropTrailWs_nil_or_head r with h0 | h0
        · exact absurd h0 hn
        · exact pairHead_of_same_head (pairHead_of_elem h) h0
      · exact ih (noPair_tail h)

theorem dropTrailWs_mem (l : List Nat) : ∀ x ∈ dropTrailWs l, x ∈ l := by
  induction l with
  | nil => intro x hx; exact hx
  | cons c r ih =>
    intro x hx
    rw [dropTrailWs_cons] at hx
    by_cases hn : dropTrailWs r = []
    · by_cases hw : isWs c = true
      · rw [if_pos hn, if_pos hw] at hx
        simp at hx
      · rw [if_pos hn, if_neg hw] at hx
        simp at hx
        simp [hx]
    · rw [if_neg hn] at hx
      rcases List.mem_cons.mp hx with hxc | hxm
      · subst hxc; simp
      · exact List.mem_cons_of_mem _ (ih x hxm)

theorem dropTrailWs_all (P : Nat → Bool) (l : List Nat) (h : l.all P = true) :
    (dropTrailWs l).all P = true := by
  simp only [List.all_eq_true] at h ⊢
  exact fun x hx => h x (dropTrailWs_mem l x hx)

theorem dropTrailWs_headNotWs (l : List Nat) (h : headNotWs l = true) :
    headNotWs (dropTrailWs l) = true := by
  rcases dropTrailWs_nil_or_head l with h0 | h0
  · rw [h0]; rfl
  · cases hx : dropTrailWs l with
    | nil => rfl
    | cons x xs =>
      rw [hx] at h0
      cases l with
      | nil => simp at h0
      | cons y ys =>
        simp only [List.head?] at h0
        injection h0 with hxy
        subst hxy
        simpa [headNotWs] using h

theorem stripWs_headNotWs (l : List Nat) : headNotWs (stripWs l) = true :=
  dropTrailWs_headNotWs _ (dropWhile_headNotWs l)

theorem stripWs_lastNotWs (l : List Nat) : lastNotWs (stripWs l) = true :=
  dropTrailWs_lastNotWs _

theorem stripWs_noPair (p q : Nat → Bool) (l : List Nat) (h : noPair p q l = true) :
    noPair p q (stripWs l) = true :=
  dropTrailWs_noPair p q _ (dropWhile_noPair p q isWs l h)

theorem stripWs_all (P : Nat → Bool) (l : List Nat) (h : l.all P = true) :
    (stripWs l).all P = true :=
  dropTrailWs_all P _ (dropWhile_all P isWs l h)

theorem goodNorm_normalize (l : List Nat) : goodNorm (normalize_spaces l) = true := by
  have h0sp := collapseWs_wsIsSp false l
  have h0db := collapseWs_noDbl false l
  have h1sp := replSpThen_wsIsSp 44 _ h0sp
  have h1db := replSpThen_noPair_pres 44 isWs isWs (by decide) _ h0db
  have h144 := replSpThen_removes 44 (by decide) _ h0db
  have h2sp := replSpThen_wsIsSp 46 _ h1sp
  have h2db := replSpThen_noPair_pres 46 isWs isWs (by decide) _ h1db
  have h244 := replSpThen_noPair_pres 46 (fun a => a = 32) (fun c => c = 44) (by decide) _ h144
  have h246 := replSpThen_removes 46 (by decide) _ h1db
  unfold normalize_spaces
  simp only [goodNorm, Bool.and_eq_true, wsIsSp] at h2sp ⊢
  exact ⟨⟨⟨⟨⟨stripWs_all _ _ h2sp, stripWs_noPair _ _ _ h2db⟩,
    stripWs_noPair _ _ _ h244⟩, stripWs_noPair _ _ _ h246⟩,
    stripWs_headNotWs _⟩, stripWs_lastNotWs _⟩

theorem headNotWs_of_pairHead {c : Nat} {r : List Nat} (hw : isWs c = true)
    (h : pairHead isWs isWs c r = true) : headNotWs r = true := by
  cases r with
  | nil => rfl
  | cons b s =>
    simp only [pairHead, hw, Bool.true_and, Bool.not_eq_eq_eq_not, Bool.not_true] at h
    simpa [headNotWs] using h

theorem collapseWs_id (l : List Nat) (hsp : wsIsSp l = true)
    (hdbl : noPair isWs isWs l = true) :
    collapseWs false l = l ∧ (headNotWs l = true → collapseWs true l = l) := by
  induction l with
  | nil => exact ⟨rfl, fun _ => rfl⟩
  | cons c r ih =>
    have hsp' : wsIsSp r = true := by
      simp only [wsIsSp, List.all_cons, Bool.and_eq_true] at hsp
      exact hsp.2
    have hc : isWs c = true → c = 32 := by
      simp only [wsIsSp, List.all_cons, Bool.and_eq_true] at hsp
      intro hw
      rcases Bool.or_eq_true_iff.mp hsp.1 with h1 | h2
      · rw [hw] at h1; simp at h1
      · simpa using h2
    have ih' := ih hsp' (noPair_tail hdbl)
    constructor
    · by_cases hw : isWs c = true
      · have hc32 := hc hw
        have hhr : headNotWs r = true :=
          headNotWs_of_pairHead hw (pairHead_of_elem hdbl)
        rw [collapseWs_cons, if_pos hw, if_neg Bool.false_ne_true, ih'.2 hhr, hc32]
      · rw [collapseWs_cons, if_neg hw, ih'.1]
    · intro hh
      have hw : isWs c = false := by simpa [headNotWs] using hh
      rw [collapseWs_cons, if_neg (by simp [hw]), ih'.1]

theorem replSpThen_id (b : Nat) (l : List Nat)
    (h : noPair (fun a => a = 32) (fun c => c = b) l = true) :
    replSpThen b l = l := by
  induction l using replSpThen.induct b with
  | case1 => rfl
  | case2 r2 ih =>
    have := pairHead_of_elem h
    simp [pairHead] at this
  | case3 c2 r2 hb ih =>
    rw [replSpThen_eq3 b c2 r2 hb, ih (noPair_tail h)]
  | case4 => rfl
  | case5 c r hc ih =>
    rw [replSpThen_eq5 b c r hc, ih (noPair_tail h)]

theorem dropWhile_id_of_headNotWs (l : List Nat) (h : headNotWs l = true) :
    l.dropWhile isWs = l := by
  cases l with
  | nil => rfl
  | cons c r =>
    have hw : isWs c = false := by simpa [headNotWs] using h
    simp [List.dropWhile_cons, hw]

theorem dropTrailWs_id (l : List Nat) (h : lastNotWs l = true) : dropTrailWs l = l := by
  induction l with
  | nil => rfl
  | cons c r ih =>
    cases r with
    | nil =>
      have hw : isWs c = false := by simpa [lastNotWs] using h
      rw [dropTrailWs_cons, dropTrailWs_nil]
      rw [if_pos (Eq.refl ([] : List Nat)), if_neg (by simp [hw])]
    | cons c2 r2 =>
      have h2 : lastNotWs (c2 :: r2) = true := by
        simpa [lastNotWs] using h
      have ih' := ih h2
      rw [dropTrailWs_cons, ih', if_neg (by simp)]

theorem stripWs_id (l : List Nat) (h1 : headNotWs l = true) (h2 : lastNotWs l = true) :
    stripWs l = l := by
  unfold stripWs
  rw [dropWhile_id_of_headNotWs l h1, dropTrailWs_id l h2]

theorem normalize_id_of_good (l : List Nat) (h : goodNorm l = true) :
    normalize_spaces l = l := by
  simp only [goodNorm, Bool.and_eq_true] at h
  obtain ⟨⟨⟨⟨⟨h1, h2⟩, h3⟩, h4⟩, h5⟩, h6⟩ := h
  unfold normalize_spaces
  rw [(collapseWs_id l h1 h2).1, replSpThen_id 44 l h3, replSpThen_id 46 l h4,
    stripWs_id l h5 h6]

/-! ## Claim theorems (normalizer) -/

/-- C4: the text normalizer is idempotent: for every string `s`,
`normalize_spaces (normalize_spaces s) = normalize_spaces s`. -/
theorem claim4_normalize_idempotent :
    ∀ s : List Nat, normalize_spaces (normalize_spaces s) = normalize_spaces s :=
  fun s => normalize_id_of_good _ (goodNorm_normalize s)

/-- C3, counterexample: `normalize_spaces` does not map `"4 . 0"` to
`"4.0"` (it only deletes the space before the period, yielding
`"4. 0"`), so the claimed repair of digit–separator–digit sequences does
not hold. -/
theorem claim3_counterexample :
    normalize_spaces (strLit "4 . 0") ≠ strLit "4.0" := by decide

/-- C3, amended: for every input the normalizer collapses every
whitespace run to one plain space (all whitespace is the space 32 and no
two are adjacent, none at either end) and removes the space before every
comma and period; it repairs only the left side of an OCR-split decimal
separator, mapping `"4 . 0"` to `"4. 0"`, not to `"4.0"`. -/
theorem claim3_amended :
    (∀ s : List Nat,
      wsIsSp (normalize_spaces s) = true ∧
      noPair isWs isWs (normalize_spaces s) = true ∧
      noPair (fun a => a = 32) (fun b => b = 44) (normalize_spaces s) = true ∧
      noPair (fun a => a = 32) (fun b => b = 46) (normalize_spaces s) = true ∧
      headNotWs (normalize_spaces s) = true ∧
      lastNotWs (normalize_spaces s) = true) ∧
    normalize_spaces (strLit "4 . 0") = strLit "4. 0" := by
  constructor
  · intro s
    have h := goodNorm_normalize s
    simp only [goodNorm, Bool.and_eq_true] at h
    obtain ⟨⟨⟨⟨⟨h1, h2⟩, h3⟩, h4⟩, h5⟩, h6⟩ := h
    exact ⟨h1, h2, h3, h4, h5, h6⟩
  · decide

/-! ## Claim theorems (parsers, concrete documents) -/

/-- C1, code evaluation at the spec's fallback-activation document: on
first line `"03085 Urea 03077 Kyselina"`, second line
`"4.0 (2.8-8.1) 447 (202-417)"`, the primary parser yields ONE record
(with the mispaired result `"03077 Kyselina"`), not zero, so
`regex_fallback_table` returns that record and never invokes
`parse_two_streams` — which, run directly, yields exactly the two
correctly paired records the claim describes. -/
theorem claim1_fallback_not_activated :
    parse_normal_lines (strLit "03085 Urea 03077 Kyselina\n4.0 (2.8-8.1) 447 (202-417)") =
      [⟨strLit "03085", strLit "Urea", strLit "03077 Kyselina", [], []⟩] ∧
    regex_fallback_table (strLit "03085 Urea 03077 Kyselina\n4.0 (2.8-8.1) 447 (202-417)") =
      [⟨strLit "03085", strLit "Urea", strLit "03077 Kyselina", [], []⟩] ∧
    parse_two_streams (strLit "03085 Urea 03077 Kyselina\n4.0 (2.8-8.1) 447 (202-417)") =
      [⟨strLit "03085", strLit "Urea", strLit "4.0", strLit "2.8", strLit "8.1"⟩,
       ⟨strLit "03077", strLit "Kyselina", strLit "447", strLit "202", strLit "417"⟩] :=
  ⟨by decide, by decide, by decide⟩

/-- C2: the single line `"03085 Urea 4.0 mmol/L (2.8 - 8.1)"` parses to
exactly one record with code `"03085"`, raw name `"Urea"`, result field
`"4.0 mmol/L"` (the value token `"4.0"` and the unit token `"mmol/L"`),
numeric value 4, numeric bounds 2.8 and 8.1, and the out-of-range
annotator does not flag it. -/
theorem claim2_roundtrip :
    parse_normal_lines (strLit "03085 Urea 4.0 mmol/L (2.8 - 8.1)") =
      [⟨strLit "03085", strLit "Urea", strLit "4.0 mmol/L", strLit "2.8", strLit "8.1"⟩] ∧
    strLit "4.0 mmol/L" = strLit "4.0" ++ strLit " " ++ strLit "mmol/L" ∧
    to_num (strLit "4.0 mmol/L") = some 4 ∧
    to_num (strLit "2.8") = some (14 / 5) ∧
    to_num (strLit "8.1") = some (81 / 10) ∧
    row_flag ⟨strLit "03085", strLit "Urea", strLit "4.0 mmol/L",
      strLit "2.8", strLit "8.1"⟩ = false := by
  refine ⟨by decide, by decide, by decide, ?_, ?_, by decide⟩
  · rw [show (14 / 5 : ℚ) = mkRat 14 5 by rw [Rat.mkRat_eq_div]; norm_num]
    decide
  · rw [show (81 / 10 : ℚ) = mkRat 81 10 by rw [Rat.mkRat_eq_div]; norm_num]
    decide

/-- C5: the range step unifies hyphen, en dash (8211) and tilde and
strips spaces around the dash, so `"2.8-8.1"`, `"2.8 – 8.1"` and
`"2.8~8.1"` all parse to the identical `(min, max)` pair
`("2.8", "8.1")`. -/
theorem claim5_glyph_unification :
    range_split (some (strLit "2.8-8.1")) = (strLit "2.8", strLit "8.1") ∧
    range_split (some (strLit "2.8 – 8.1")) = (strLit "2.8", strLit "8.1") ∧
    range_split (some (strLit "2.8~8.1")) = (strLit "2.8", strLit "8.1") :=
  ⟨by decide, by decide, by decide⟩

/-- C6, counterexample: the non-numeric fragment `"abc"` does not yield
an empty min bound — the whole fragment is stored in the min field. -/
theorem claim6_counterexample :
    range_split (some (strLit "abc")) = (strLit "abc", []) ∧
    (strLit "abc" : List Nat) ≠ [] :=
  ⟨by decide, by decide⟩

/-! ## Digit-free fragments -/

theorem noDig_takeWhile_isDigit {m : List Nat} (h : m.all (fun c => !isDigit c) = true) :
    m.takeWhile isDigit = [] := by
  cases m with
  | nil => rfl
  | cons c r =>
    simp only [List.all_cons, Bool.and_eq_true] at h
    have : isDigit c = false := by simpa using h.1
    simp [List.takeWhile_cons, this]

theorem noDig_tail {c : Nat} {r : List Nat}
    (h : (c :: r).all (fun c => !isDigit c) = true) :
    r.all (fun c => !isDigit c) = true := by
  simp only [List.all_cons, Bool.and_eq_true] at h
  exact h.2

theorem numAtCore_none_of_noDig (neg : Bool) {m : List Nat}
    (h : m.all (fun c => !isDigit c) = true) : numAtCore neg m = none := by
  unfold numAtCore
  rw [noDig_takeWhile_isDigit h]
  simp only [ne_eq, not_true_eq_false, if_false, List.length_nil, List.drop_zero,
    Bool.false_eq_true]
  split
  · rename_i r2
    rw [noDig_takeWhile_isDigit (noDig_tail h)]
    simp
  · rfl

theorem numAt_none_of_noDig {m : List Nat} (h : m.all (fun c => !isDigit c) = true) :
    numAt m = none := by
  unfold numAt
  split
  · exact numAtCore_none_of_noDig false (noDig_tail h)
  · exact numAtCore_none_of_noDig true (noDig_tail h)
  · exact numAtCore_none_of_noDig false h

theorem searchNum_none_of_noDig {m : List Nat} (h : m.all (fun c => !isDigit c) = true) :
    searchNum m = none := by
  induction m with
  | nil => rfl
  | cons c r ih =>
    unfold searchNum
    rw [numAt_none_of_noDig h, ih (noDig_tail h)]

theorem to_num_none_of_noDig {m : List Nat} (h : m.all (fun c => !isDigit c) = true) :
    to_num m = none := by
  unfold to_num
  refine searchNum_none_of_noDig ?_
  simp only [List.all_eq_true] at h ⊢
  intro x hx
  rcases List.mem_map.mp hx with ⟨y, hy, hxy⟩
  by_cases h44 : y = 44
  · subst h44
    simp only [if_pos rfl] at hxy
    subst hxy
    decide
  · rw [if_neg h44] at hxy
    subst hxy
    exact h y hy

theorem map_dashGlyph_noDig {m : List Nat} (h : m.all (fun c => !isDigit c) = true) :
    (m.map dashGlyph).all (fun c => !isDigit c) = true := by
  simp only [List.all_eq_true] at h ⊢
  intro x hx
  rcases List.mem_map.mp hx with ⟨y, hy, hxy⟩
  unfold dashGlyph at hxy
  by_cases h1 : y = 126
  · rw [if_pos h1] at hxy; subst hxy; decide
  · rw [if_neg h1] at hxy
    by_cases h2 : y = 8211
    · rw [if_pos h2] at hxy; subst hxy; decide
    · rw [if_neg h2] at hxy
      by_cases h3 : y = 8212
      · rw [if_pos h3] at hxy; subst hxy; decide
      · rw [if_neg h3] at hxy; subst hxy; exact h y hy

theorem all_head {P : Nat → Bool} {c : Nat} {r : List Nat}
    (h : (c :: r).all P = true) : P c = true := by
  simp only [List.all_cons, Bool.and_eq_true] at h
  exact h.1

theorem all_tail {P : Nat → Bool} {c : Nat} {r : List Nat}
    (h : (c :: r).all P = true) : r.all P = true := by
  simp only [List.all_cons, Bool.and_eq_true] at h
  exact h.2

theorem all_drop (P : Nat → Bool) (n : Nat) {l : List Nat} (h : l.all P = true) :
    (l.drop n).all P = true := by
  simp only [List.all_eq_true] at h ⊢
  exact fun x hx => h x (List.drop_subset n l hx)

theorem subDashF_all (P : Nat → Bool) (hP : P 45 = true) :
    ∀ (fuel : Nat) (l : List Nat), l.all P = true → (subDashF fuel l).all P = true := by
  intro fuel l
  induction fuel, l using subDashF.induct with
  | case1 l => exact fun h => h
  | case2 n => exact fun h => h
  | case3 fuel r ih =>
    intro h
    have e : subDashF (fuel + 1) (45 :: r) = 45 :: subDashF fuel (r.dropWhile isWs) := by
      rw [subDashF.eq_def]; simp
    rw [e]
    simp only [List.all_cons, Bool.and_eq_true]
    exact ⟨hP, ih (dropWhile_all P isWs r (all_tail h))⟩
  | case4 fuel c r hc hw r2 heq ih =>
    intro h
    have e : subDashF (fuel + 1) (c :: r) = 45 :: subDashF fuel (r2.dropWhile isWs) := by
      rw [subDashF.eq_def]; simp [hc, hw, heq]
    rw [e]
    simp only [List.all_cons, Bool.and_eq_true]
    refine ⟨hP, ih ?_⟩
    have hdw : (r.dropWhile isWs).all P = true := dropWhile_all P isWs r (all_tail h)
    rw [heq] at hdw
    exact dropWhile_all P isWs r2 (all_tail hdw)
  | case5 fuel c r hc hw hne ih =>
    intro h
    have e : subDashF (fuel + 1) (c :: r) = c :: subDashF fuel r := by
      rw [subDashF.eq_def]
      simp only [hc, hw, Bool.false_eq_true, if_false, if_true]
    rw [e]
    simp only [List.all_cons, Bool.and_eq_true]
    exact ⟨all_head h, ih (all_tail h)⟩
  | case6 fuel c r hc hw ih =>
    intro h
    have e : subDashF (fuel + 1) (c :: r) = c :: subDashF fuel r := by
      rw [subDashF.eq_def]; simp [hc, hw]
    rw [e]
    simp only [List.all_cons, Bool.and_eq_true]
    exact ⟨all_head h, ih (all_tail h)⟩

theorem splitDashF_all (P : Nat → Bool) :
    ∀ (fuel : Nat) (l : List Nat), l.all P = true →
      ∀ p ∈ splitDashF fuel l, p.all P = true := by
  intro fuel l
  induction fuel, l using splitDashF.induct with
  | case1 l =>
    intro h p hp
    rw [show splitDashF 0 l = [l] from by rw [splitDashF.eq_def]] at hp
    rw [List.mem_singleton.mp hp]
    exact h
  | case2 n =>
    intro _ p hp
    rw [show splitDashF (n + 1) [] = [[]] from by rw [splitDashF.eq_def]] at hp
    rw [List.mem_singleton.mp hp]
    rfl
  | case3 fuel r ih =>
    intro h p hp
    have e : splitDashF (fuel + 1) (45 :: r) = [] :: splitDashF fuel r := by
      rw [splitDashF.eq_def]; simp
    rw [e] at hp
    rcases List.mem_cons.mp hp with h0 | h0
    · rw [h0]; rfl
    · exact ih (all_tail h) p h0
  | case4 fuel c r hc hcond ih =>
    intro h p hp
    have e : splitDashF (fuel + 1) (c :: r) = [] :: splitDashF fuel (r.drop 3) := by
      rw [splitDashF.eq_def]; simp [hc, hcond]
    rw [e] at hp
    rcases List.mem_cons.mp hp with h0 | h0
    · rw [h0]; rfl
    · exact ih (all_drop P 3 (all_tail h)) p h0
  | case5 fuel c r hc hcond h0 t heq ih =>
    intro h p hp
    have e : splitDashF (fuel + 1) (c :: r) = (c :: h0) :: t := by
      rw [splitDashF.eq_def]; simp [hc, hcond, heq]
    rw [e] at hp
    rcases List.mem_cons.mp hp with hm | hm
    · rw [hm]
      simp only [List.all_cons, Bool.and_eq_true]
      exact ⟨all_head h, ih (all_tail h) h0 (heq ▸ List.mem_cons_self h0 t)⟩
    · exact ih (all_tail h) p (heq ▸ List.mem_cons_of_mem h0 hm)
  | case6 fuel c r hc hcond heq ih =>
    intro h p hp
    have e : splitDashF (fuel + 1) (c :: r) = [[c]] := by
      rw [splitDashF.eq_def]; simp [hc, hcond, heq]
    rw [e] at hp
    rw [List.mem_singleton.mp hp]
    simp only [List.all_cons, Bool.and_eq_true]
    exact ⟨all_head h, rfl⟩

theorem range_split_noDig {s : List Nat} (h : s.all (fun c => !isDigit c) = true) :
    (range_split (some s)).1.all (fun c => !isDigit c) = true ∧
    (range_split (some s)).2.all (fun c => !isDigit c) = true := by
  have h1 : (subDash ((stripWs s).map dashGlyph)).all (fun c => !isDigit c) = true :=
    subDashF_all _ (by decide) _ _ (map_dashGlyph_noDig (stripWs_all _ s h))
  have hgoal : range_split (some s) =
      (if subDash ((stripWs s).map dashGlyph) = [] then (([], []) : List Nat × List Nat)
       else
         match splitDash (subDash ((stripWs s).map dashGlyph)) with
         | p0 :: p1 :: _ => (stripWs p0, stripWs p1)
         | _ => (stripWs (subDash ((stripWs s).map dashGlyph)), [])) := rfl
  rw [hgoal]
  by_cases he : subDash ((stripWs s).map dashGlyph) = []
  · rw [if_pos he]; exact ⟨rfl, rfl⟩
  · rw [if_neg he]
    cases hsd : splitDash (subDash ((stripWs s).map dashGlyph)) with
    | nil => exact ⟨stripWs_all _ _ h1, rfl⟩
    | cons p0 rest =>
      cases rest with
      | nil => exact ⟨stripWs_all _ _ h1, rfl⟩
      | cons p1 rest2 =>
        have hm0 : p0 ∈ splitDash (subDash ((stripWs s).map dashGlyph)) :=
          hsd ▸ List.mem_cons_self _ _
        have hm1 : p1 ∈ splitDash (subDash ((stripWs s).map dashGlyph)) :=
          hsd ▸ List.mem_cons_of_mem _ (List.mem_cons_self _ _)
        exact ⟨stripWs_all _ _ (splitDashF_all _ _ _ h1 p0 hm0),
               stripWs_all _ _ (splitDashF_all _ _ _ h1 p1 hm1)⟩

/-- C6, amended: a range fragment containing no digit never causes an
error (the parser is a total function) and yields bounds with no numeric
content: both parsed bound strings convert to no number under the
annotator's `to_num` (the separator-free fragment itself is stored in
the min field rather than the min field being empty). -/
theorem claim6_amended :
    ∀ s : List Nat, s.all (fun c => !isDigit c) = true →
      to_num (range_split (some s)).1 = none ∧ to_num (range_split (some s)).2 = none :=
  fun _ h => ⟨to_num_none_of_noDig (range_split_noDig h).1,
              to_num_none_of_noDig (range_split_noDig h).2⟩

/-- C6, witness: the amended theorem applied to the concrete digit-free
fragment `"abc"`. -/
theorem claim6_witness :
    (strLit "abc").all (fun c => !isDigit c) = true ∧
    to_num (range_split (some (strLit "abc"))).1 = none ∧
    to_num (range_split (some (strLit "abc"))).2 = none :=
  ⟨by decide, (claim6_amended (strLit "abc") (by decide)).1,
   (claim6_amended (strLit "abc") (by decide)).2⟩

/-! ## Claim theorems (annotator and orchestrator) -/

/-- C7: a record is highlighted by the annotator iff its value is
numeric, at least one bound is numeric, and the value is below the min
bound (when numeric) or above the max bound (when numeric); and a record
whose value field is the qualitative token `"neg"` is never flagged,
whatever its bounds. -/
theorem claim7_out_of_range :
    (∀ r : LabRow, row_flag r = true ↔
      ∃ v, to_num r.result = some v ∧
        ((to_num r.rmin).isSome = true ∨ (to_num r.rmax).isSome = true) ∧
        ((∃ mn, to_num r.rmin = some mn ∧ v < mn) ∨
         (∃ mx, to_num r.rmax = some mx ∧ mx < v))) ∧
    (∀ code name rmin rmax,
      row_flag ⟨code, name, strLit "neg", rmin, rmax⟩ = false) := by
  constructor
  · intro r
    unfold row_flag
    cases hv : to_num r.result with
    | none => simp [hv]
    | some v =>
      cases hmn : to_num r.rmin with
      | none =>
        cases hmx : to_num r.rmax with
        | none => simp [hmn, hmx, Option.elim]
        | some mx =>
          simp only [hmn, hmx, Option.elim, Option.isSome_some, Option.isSome_none,
            Bool.false_or, Bool.true_and, Bool.and_eq_true, decide_eq_true_eq]
          constructor
          · intro hlt
            exact ⟨v, rfl, Or.inr trivial, Or.inr ⟨mx, rfl, by simpa using hlt⟩⟩
          · rintro ⟨v2, hv2, _, hor⟩
            injection hv2 with hv2e
            subst hv2e
            rcases hor with ⟨mn, hmn2, _⟩ | ⟨mx2, hmx2, hgt⟩
            · simp at hmn2
            · injection hmx2 with hmx2e
              subst hmx2e
              simpa using hgt
      | some mn =>
        cases hmx : to_num r.rmax with
        | none =>
          simp only [hmn, hmx, Option.elim, Option.isSome_some, Option.isSome_none,
            Bool.true_or, Bool.or_false, Bool.true_and, decide_eq_true_eq]
          constructor
          · intro hlt
            exact ⟨v, rfl, Or.inl trivial, Or.inl ⟨mn, rfl, hlt⟩⟩
          · rintro ⟨v2, hv2, _, hor⟩
            injection hv2 with hv2e
            subst hv2e
            rcases hor with ⟨mn2, hmn2, hlt⟩ | ⟨mx, hmx2, _⟩
            · injection hmn2 with hmn2e
              subst hmn2e
              exact hlt
            · simp at hmx2
        | some mx =>
          simp only [hmn, hmx, Option.elim, Option.isSome_some, Bool.true_or,
            Bool.true_and, Bool.or_eq_true, decide_eq_true_eq]
          constructor
          · intro hor
            rcases hor with hlt | hgt
            · exact ⟨v, rfl, Or.inl trivial, Or.inl ⟨mn, rfl, hlt⟩⟩
            · exact ⟨v, rfl, Or.inl trivial, Or.inr ⟨mx, rfl, hgt⟩⟩
          · rintro ⟨v2, hv2, _, hor⟩
            injection hv2 with hv2e
            subst hv2e
            rcases hor with ⟨mn2, hmn2, hlt⟩ | ⟨mx2, hmx2, hgt⟩
            · injection hmn2 with hmn2e
              subst hmn2e
              exact Or.inl hlt
            · injection hmx2 with hmx2e
              subst hmx2e
              exact Or.inr hgt
  · intro code name rmin rmax
    rfl

/-- C8: the orchestrator is a total function of the input text; it
returns the rows of one of the two strategies, and it returns the empty
sequence exactly when both parser strategies yield zero records. -/
theorem claim8_no_records :
    ∀ t : List Nat,
      (regex_fallback_table t = [] ↔
        parse_normal_lines t = [] ∧ parse_two_streams t = []) ∧
      (regex_fallback_table t = parse_normal_lines t ∨
       regex_fallback_table t = parse_two_streams t) := by
  intro t
  unfold regex_fallback_table
  by_cases h : parse_normal_lines t = []
  · simp [h]
  · simp [h]

/-- C9: the LLM-output validator returns the decoded value when the
whole string decodes as JSON; otherwise it is exactly the fallback
chain over the trailing object block and then the trailing array block
(each block running from its first opener to the end of the text and
requiring a closer followed only by whitespace), and it returns `none`
when everything fails.  It is a total function and never raises. -/
theorem claim9_json_validator :
    ∀ t : List Nat,
      (∀ v, json_loads t = some v → extract_json_block t = some v) ∧
      (json_loads t = none →
        extract_json_block t =
          ((blockFrom 123 125 t).bind json_loads).or
            ((blockFrom 91 93 t).bind json_loads)) ∧
      (json_loads t = none → (blockFrom 123 125 t).bind json_loads = none →
        (blockFrom 91 93 t).bind json_loads = none → extract_json_block t = none) := by
  intro t
  have key : json_loads t = none →
      extract_json_block t =
        ((blockFrom 123 125 t).bind json_loads).or
          ((blockFrom 91 93 t).bind json_loads) := by
    intro hn
    unfold extract_json_block
    by_cases ht : t = []
    · subst ht; rfl
    · rw [if_neg ht, hn]
      cases hb : blockFrom 123 125 t with
      | none => rw [Option.none_bind, Option.none_or]
      | some b =>
        rw [Option.some_bind]
        show (match json_loads b with
              | some v => some v
              | none => (blockFrom 91 93 t).bind json_loads) =
            (json_loads b).or ((blockFrom 91 93 t).bind json_loads)
        cases json_loads b with
        | none => rfl
        | some v => rfl
  refine ⟨?_, key, ?_⟩
  · intro v hv
    unfold extract_json_block
    by_cases ht : t = []
    · subst ht
      rw [show json_loads [] = none from rfl] at hv
      exact absurd hv (by simp)
    · rw [if_neg ht, hv]
  · intro h1 h2 h3
    rw [key h1, h2, h3]
    rfl

/-- C9, witness: the validator applied to `"x [true]"`, where the direct
decode fails, no object block exists, and the trailing array block
decodes. -/
theorem claim9_witness :
    json_loads (strLit "x [true]") = none ∧
    extract_json_block (strLit "x [true]") = some (Json.arr [Json.bool true]) := by
  have h := (claim9_json_validator (strLit "x [true]")).2.1 (by rfl)
  exact ⟨by rfl, by rw [h]; rfl⟩

/-! ## Five-digit codes -/

theorem take5d_some {l : List Nat} {p : List Nat × List Nat} (h : take5d l = some p) :
    fiveDigits p.1 = true ∧ l = p.1 ++ p.2 := by
  unfold take5d at h
  split at h
  · rename_i a b c d e r
    split at h
    · rename_i hdig
      injection h with hp
      subst hp
      obtain ⟨⟨⟨⟨ha, hb⟩, hc⟩, hd⟩, he⟩ := by
        simpa only [Bool.and_eq_true] using hdig
      exact ⟨by simp [fiveDigits, List.all_cons, ha, hb, hc, hd, he], rfl⟩
    · exact absurd h (by simp)
  · exact absurd h (by simp)

theorem take5d_append {s l : List Nat} {p : List Nat × List Nat} (h : take5d l = some p) :
    take5d (l ++ s) = some (p.1, p.2 ++ s) := by
  unfold take5d at h
  split at h
  · rename_i a b c d e r
    split at h
    · rename_i hdig
      injection h with hp
      subst hp
      simp only [List.cons_append]
      show (if (isDigit a && isDigit b && isDigit c && isDigit d && isDigit e) = true
            then some (([a, b, c, d, e], r ++ s) : List Nat × List Nat) else none) =
          some ([a, b, c, d, e], r ++ s)
      rw [if_pos hdig]
    · exact absurd h (by simp)
  · exact absurd h (by simp)

theorem has5_cons (c : Nat) (r : List Nat) :
    has5 (c :: r) = ((take5d (c :: r)).isSome || has5 r) := rfl

theorem has5_append_right {y : List Nat} (s : List Nat) (h : has5 y = true) :
    has5 (y ++ s) = true := by
  induction y with
  | nil => simp [has5] at h
  | cons c r ih =>
    rw [has5_cons] at h
    simp only [List.cons_append]
    rw [has5_cons]
    rcases Bool.or_eq_true_iff.mp h with h5 | hr
    · rcases Option.isSome_iff_exists.mp h5 with ⟨p, hp⟩
      have h2 := take5d_append (s := s) hp
      simp only [List.cons_append] at h2
      rw [h2]
      rfl
    · rw [ih hr]
      simp

theorem has5_append_left (x : List Nat) {y : List Nat} (h : has5 y = true) :
    has5 (x ++ y) = true := by
  induction x with
  | nil => simpa using h
  | cons c r ih =>
    simp only [List.cons_append]
    rw [has5_cons, ih]
    simp

theorem dropTrailWs_decomp : ∀ l : List Nat, ∃ s, l = dropTrailWs l ++ s := by
  intro l
  induction l with
  | nil => exact ⟨[], rfl⟩
  | cons c r ih =>
    rcases ih with ⟨s, hs⟩
    by_cases h : dropTrailWs r = []
    · by_cases hw : isWs c = true
      · exact ⟨c :: r, by rw [dropTrailWs_cons, if_pos h, if_pos hw]; rfl⟩
      · exact ⟨r, by rw [dropTrailWs_cons, if_pos h, if_neg hw]; rfl⟩
    · refine ⟨s, ?_⟩
      rw [dropTrailWs_cons, if_neg h, List.cons_append, ← hs]

theorem has5_stripWs {l : List Nat} (h : has5 (stripWs l) = true) : has5 l = true := by
  unfold stripWs at h
  rcases dropTrailWs_decomp (l.dropWhile isWs) with ⟨s, hs⟩
  have h2 : has5 (l.dropWhile isWs) = true := by
    rw [hs]; exact has5_append_right s h
  have h3 := has5_append_left (l.takeWhile isWs) h2
  rwa [List.takeWhile_append_dropWhile] at h3

theorem splitNl_head_prefix : ∀ (r h : List Nat) (t : List (List Nat)),
    splitNl r = h :: t → ∃ y, r = h ++ y := by
  intro r
  induction r with
  | nil =>
    intro h t he
    unfold splitNl at he
    injection he with h1 _
    subst h1
    exact ⟨[], rfl⟩
  | cons c r0 ih =>
    intro h t he
    unfold splitNl at he
    by_cases hc : c = 10
    · rw [if_pos hc] at he
      injection he with h1 _
      subst h1
      exact ⟨c :: r0, rfl⟩
    · rw [if_neg hc] at he
      cases hs : splitNl r0 with
      | nil =>
        rw [hs] at he
        injection he with h1 _
        subst h1
        exact ⟨r0, rfl⟩
      | cons h0 t0 =>
        rw [hs] at he
        injection he with h1 _
        subst h1
        rcases ih h0 t0 hs with ⟨y, hy⟩
        exact ⟨y, by rw [List.cons_append, ← hy]⟩

theorem splitNl_mem_infix : ∀ (t p : List Nat), p ∈ splitNl t →
    ∃ x y, t = x ++ p ++ y := by
  intro t
  induction t with
  | nil =>
    intro p hp
    unfold splitNl at hp
    rw [List.mem_singleton.mp hp]
    exact ⟨[], [], rfl⟩
  | cons c r ih =>
    intro p hp
    unfold splitNl at hp
    by_cases hc : c = 10
    · rw [if_pos hc] at hp
      rcases List.mem_cons.mp hp with h0 | h0
      · subst h0
        exact ⟨[], c :: r, rfl⟩
      · rcases ih p h0 with ⟨x, y, hxy⟩
        exact ⟨c :: x, y, by rw [hxy]; rfl⟩
    · rw [if_neg hc] at hp
      cases hs : splitNl r with
      | nil =>
        rw [hs] at hp
        rw [List.mem_singleton.mp hp]
        exact ⟨[], r, rfl⟩
      | cons h0 t0 =>
        rw [hs] at hp
        rcases List.mem_cons.mp hp with hph | hpt
        · subst hph
          rcases splitNl_head_prefix r h0 t0 hs with ⟨y, hy⟩
          exact ⟨[], y, by rw [hy]; rfl⟩
        · have hmem : p ∈ splitNl r := by
            rw [hs]; exact List.mem_cons_of_mem _ hpt
          rcases ih p hmem with ⟨x, y, hxy⟩
          exact ⟨c :: x, y, by rw [hxy]; rfl⟩

theorem has5_of_infix {t p x y : List Nat} (ht : t = x ++ p ++ y)
    (h : has5 p = true) : has5 t = true := by
  subst ht
  rw [List.append_assoc]
  exact has5_append_left x (has5_append_right y h)

theorem exists_of_mem_zipWith {α β γ : Type} {f : α → β → γ} :
    ∀ {as : List α} {bs : List β} {x : γ}, x ∈ List.zipWith f as bs →
      ∃ a b, a ∈ as ∧ b ∈ bs ∧ x = f a b := by
  intro as
  induction as with
  | nil => intro bs x hx; simp at hx
  | cons a as2 ih =>
    intro bs x hx
    cases bs with
    | nil => simp at hx
    | cons b bs2 =>
      rw [List.zipWith_cons_cons] at hx
      rcases List.mem_cons.mp hx with h0 | h0
      · exact ⟨a, b, List.mem_cons_self _ _, List.mem_cons_self _ _, h0⟩
      · rcases ih h0 with ⟨a2, b2, ha, hb, he⟩
        exact ⟨a2, b2, List.mem_cons_of_mem _ ha, List.mem_cons_of_mem _ hb, he⟩

theorem isDigit_not_ws {c : Nat} (h : isDigit c = true) : isWs c = false := by
  simp only [isDigit, Bool.and_eq_true, decide_eq_true_eq] at h
  obtain ⟨h1, h2⟩ := h
  interval_cases c <;> rfl

theorem allDigit_lastNotWs : ∀ {d : List Nat}, d.all isDigit = true → lastNotWs d = true := by
  intro d
  induction d with
  | nil => intro _; rfl
  | cons c r ih =>
    intro h
    cases r with
    | nil => simp [lastNotWs, isDigit_not_ws (all_head h)]
    | cons c2 r2 =>
      show lastNotWs (c2 :: r2) = true
      exact ih (all_tail h)

theorem allDigit_strip {d : List Nat} (h : d.all isDigit = true) : stripWs d = d := by
  refine stripWs_id d ?_ (allDigit_lastNotWs h)
  cases d with
  | nil => rfl
  | cons c r => simp [headNotWs, isDigit_not_ws (all_head h)]

theorem fiveDigits_stripWs {d : List Nat} (h : fiveDigits d = true) :
    fiveDigits (stripWs d) = true := by
  have h2 : d.all isDigit = true := by
    simp only [fiveDigits, Bool.and_eq_true] at h
    exact h.2
  rw [allDigit_strip h2]
  exact h

theorem matchNormalAt_some {l : List Nat}
    {x : List Nat × List Nat × List Nat × Option (List Nat) × List Nat}
    (h : matchNormalAt l = some x) :
    ∃ p, take5d l = some p ∧ x.1 = p.1 := by
  unfold matchNormalAt at h
  cases h5 : take5d l with
  | none => rw [h5] at h; simp at h
  | some p =>
    rw [h5, Option.some_bind] at h
    rcases Option.map_eq_some'.mp h with ⟨y, _, hxy⟩
    exact ⟨p, rfl, by rw [← hxy]⟩

theorem matchCnAt_some {l : List Nat} {x : (List Nat × List Nat) × List Nat}
    (h : matchCnAt l = some x) :
    ∃ p, take5d l = some p ∧ x.1.1 = p.1 := by
  unfold matchCnAt at h
  cases h5 : take5d l with
  | none => rw [h5] at h; simp at h
  | some p =>
    rw [h5, Option.some_bind] at h
    rcases Option.map_eq_some'.mp h with ⟨y, _, hxy⟩
    exact ⟨p, rfl, by rw [← hxy]⟩

theorem scanNormal_codes : ∀ (fuel : Nat) (l : List Nat),
    ∀ row ∈ scanNormal fuel l, fiveDigits row.code = true := by
  intro fuel l
  induction fuel, l using scanNormal.induct with
  | case1 l =>
    intro row hrow
    rw [show scanNormal 0 l = [] from rfl] at hrow
    simp at hrow
  | case2 n =>
    intro row hrow
    rw [show scanNormal (n + 1) [] = [] from rfl] at hrow
    simp at hrow
  | case3 fuel c r code name result orng rest hm ih =>
    intro row hrow
    have e : scanNormal (fuel + 1) (c :: r) =
        mkNormalRow code name result orng :: scanNormal fuel rest := by
      rw [show scanNormal (fuel + 1) (c :: r) =
          (match matchNormalAt (c :: r) with
           | some (code, name, result, orng, rest) =>
             mkNormalRow code name result orng :: scanNormal fuel rest
           | none => scanNormal fuel r) from rfl, hm]
    rw [e] at hrow
    rcases List.mem_cons.mp hrow with h0 | h0
    · subst h0
      rcases matchNormalAt_some hm with ⟨p, h5, hcode⟩
      have hfd := (take5d_some h5).1
      show fiveDigits (stripWs code) = true
      rw [show code = p.1 from hcode]
      exact fiveDigits_stripWs hfd
    · exact ih row h0
  | case4 fuel c r hm ih =>
    intro row hrow
    have e : scanNormal (fuel + 1) (c :: r) = scanNormal fuel r := by
      rw [show scanNormal (fuel + 1) (c :: r) =
          (match matchNormalAt (c :: r) with
           | some (code, name, result, orng, rest) =>
             mkNormalRow code name result orng :: scanNormal fuel rest
           | none => scanNormal fuel r) from rfl, hm]
    rw [e] at hrow
    exact ih row hrow

theorem scanNormal_has5 : ∀ (fuel : Nat) (l : List Nat),
    scanNormal fuel l ≠ [] → has5 l = true := by
  intro fuel l
  induction fuel, l using scanNormal.induct with
  | case1 l => intro hne; exact absurd rfl hne
  | case2 n => intro hne; exact absurd rfl hne
  | case3 fuel c r code name result orng rest hm ih =>
    intro _
    rcases matchNormalAt_some hm with ⟨p, h5, _⟩
    rw [has5_cons, h5]
    rfl
  | case4 fuel c r hm ih =>
    intro hne
    have e : scanNormal (fuel + 1) (c :: r) = scanNormal fuel r := by
      rw [show scanNormal (fuel + 1) (c :: r) =
          (match matchNormalAt (c :: r) with
           | some (code, name, result, orng, rest) =>
             mkNormalRow code name result orng :: scanNormal fuel rest
           | none => scanNormal fuel r) from rfl, hm]
    rw [e] at hne
    rw [has5_cons, ih hne]
    simp

theorem scanCn_codes : ∀ (fuel : Nat) (l : List Nat),
    ∀ pr ∈ scanCn fuel l, fiveDigits pr.1 = true := by
  intro fuel l
  induction fuel, l using scanCn.induct with
  | case1 l =>
    intro pr hpr
    rw [show scanCn 0 l = [] from rfl] at hpr
    simp at hpr
  | case2 n =>
    intro pr hpr
    rw [show scanCn (n + 1) [] = [] from rfl] at hpr
    simp at hpr
  | case3 fuel c r p rest hm ih =>
    intro pr hpr
    have e : scanCn (fuel + 1) (c :: r) =
        (stripWs p.1, normalize_spaces p.2) :: scanCn fuel rest := by
      rw [show scanCn (fuel + 1) (c :: r) =
          (match matchCnAt (c :: r) with
           | some (p, rest) => (stripWs p.1, normalize_spaces p.2) :: scanCn fuel rest
           | none => scanCn fuel r) from rfl, hm]
    rw [e] at hpr
    rcases List.mem_cons.mp hpr with h0 | h0
    · subst h0
      rcases matchCnAt_some hm with ⟨q, h5, hcode⟩
      have hfd := (take5d_some h5).1
      show fiveDigits (stripWs p.1) = true
      rw [show p.1 = q.1 from hcode]
      exact fiveDigits_stripWs hfd
    · exact ih pr h0
  | case4 fuel c r hm ih =>
    intro pr hpr
    have e : scanCn (fuel + 1) (c :: r) = scanCn fuel r := by
      rw [show scanCn (fuel + 1) (c :: r) =
          (match matchCnAt (c :: r) with
           | some (p, rest) => (stripWs p.1, normalize_spaces p.2) :: scanCn fuel rest
           | none => scanCn fuel r) from rfl, hm]
    rw [e] at hpr
    exact ih pr hpr

theorem scanCn_has5 : ∀ (fuel : Nat) (l : List Nat),
    scanCn fuel l ≠ [] → has5 l = true := by
  intro fuel l
  induction fuel, l using scanCn.induct with
  | case1 l => intro hne; exact absurd rfl hne
  | case2 n => intro hne; exact absurd rfl hne
  | case3 fuel c r p rest hm ih =>
    intro _
    rcases matchCnAt_some hm with ⟨q, h5, _⟩
    rw [has5_cons, h5]
    rfl
  | case4 fuel c r hm ih =>
    intro hne
    have e : scanCn (fuel + 1) (c :: r) = scanCn fuel r := by
      rw [show scanCn (fuel + 1) (c :: r) =
          (match matchCnAt (c :: r) with
           | some (p, rest) => (stripWs p.1, normalize_spaces p.2) :: scanCn fuel rest
           | none => scanCn fuel r) from rfl, hm]
    rw [e] at hne
    rw [has5_cons, ih hne]
    simp

theorem parse_two_streams_shape (t : List Nat) :
    parse_two_streams t = [] ∨
    ∃ l0 restL, (((splitNl t).map stripWs).filter (fun l => l ≠ [])) = l0 :: restL ∧
      parse_two_streams t =
        List.zipWith (fun cn v => (⟨cn.1, cn.2, v.1, v.2.1, v.2.2⟩ : LabRow))
          (scanCn (l0.length + 1) l0)
          (scanVal ((joinSp restL).length + 1) none (joinSp restL)) := by
  unfold parse_two_streams
  cases hl : ((splitNl t).map stripWs).filter (fun l => l ≠ []) with
  | nil => left; rfl
  | cons l0 restL => right; exact ⟨l0, restL, rfl, rfl⟩

theorem parse_two_streams_codes (t : List Nat) :
    ∀ row ∈ parse_two_streams t, fiveDigits row.code = true := by
  intro row hrow
  rcases parse_two_streams_shape t with he | ⟨l0, restL, _, he⟩
  · rw [he] at hrow; simp at hrow
  · rw [he] at hrow
    rcases exists_of_mem_zipWith hrow with ⟨cn, v, hcn, _, hx⟩
    subst hx
    exact scanCn_codes _ _ cn hcn

theorem parse_two_streams_has5 (t : List Nat) (hne : parse_two_streams t ≠ []) :
    has5 t = true := by
  rcases parse_two_streams_shape t with he | ⟨l0, restL, hl, he⟩
  · exact absurd he hne
  · rw [he] at hne
    have hcns : scanCn (l0.length + 1) l0 ≠ [] := by
      intro h0
      rw [h0] at hne
      simp at hne
    have h50 : has5 l0 = true := scanCn_has5 _ _ hcns
    have hl0mem : l0 ∈ ((splitNl t).map stripWs).filter (fun l => l ≠ []) := by
      rw [hl]; exact List.mem_cons_self _ _
    have hl0map : l0 ∈ (splitNl t).map stripWs := (List.mem_filter.mp hl0mem).1
    rcases List.mem_map.mp hl0map with ⟨q, hq, hq0⟩
    have h5q : has5 q = true := has5_stripWs (hq0 ▸ h50)
    rcases splitNl_mem_infix t q hq with ⟨x, y, hxy⟩
    exact has5_of_infix hxy h5q

/-- C10: every record of either parser strategy carries a code of
exactly five decimal digits, and a text containing no run of five
consecutive digits yields no records from either strategy. -/
theorem claim10_code_invariant :
    ∀ t : List Nat,
      (∀ row ∈ parse_normal_lines t, fiveDigits row.code = true) ∧
      (∀ row ∈ parse_two_streams t, fiveDigits row.code = true) ∧
      (has5 t = false → parse_normal_lines t = [] ∧ parse_two_streams t = []) := by
  intro t
  refine ⟨fun row h => scanNormal_codes _ _ row h, parse_two_streams_codes t, fun hf => ⟨?_, ?_⟩⟩
  · by_contra hne
    rw [scanNormal_has5 _ _ hne] at hf
    exact absurd hf (by simp)
  · by_contra hne
    rw [parse_two_streams_has5 t hne] at hf
    exact absurd hf (by simp)

/-- C10, witness: the invariant applied to the round-trip line (its
record's code is the five digits `"03085"`) and to the digit-free text
`"ab"` (no records from either strategy). -/
theorem claim10_witness :
    fiveDigits (strLit "03085") = true ∧
    parse_normal_lines (strLit "ab") = [] ∧ parse_two_streams (strLit "ab") = [] := by
  refine ⟨?_, ((claim10_code_invariant (strLit "ab")).2.2 (by decide)).1,
    ((claim10_code_invariant (strLit "ab")).2.2 (by decide)).2⟩
  have h := (claim10_code_invariant (strLit "03085 Urea 4.0 mmol/L (2.8 - 8.1)")).1
  exact h ⟨strLit "03085", strLit "Urea", strLit "4.0 mmol/L", strLit "2.8", strLit "8.1"⟩
    (by decide)

end OCR
